import Mathlib

/-!
Verification of the 3D-Bandstructure-for-FHI-AIMS utilities.

The two Python scripts are shallowly embedded over `ℚ` (floating-point
values are idealised as rationals, text lines as lists of characters or
abstract records of the fields the code inspects).  Each definition below
mirrors one Python function of `aims_kpoints_grid.py` or
`kpoints_gui_weighted.py`; theorems state and settle the specification
claims about them.
-/

/-! ## kpoints_gui_weighted.remove_duplicate_lines

Python:
```
def remove_duplicate_lines(x_positions, tolerance=1e-8):
    unique_positions = []
    for x in x_positions:
        is_duplicate = False
        for ux in unique_positions:
            if abs(x - ux) < tolerance:
                is_duplicate = True
                break
        if not is_duplicate:
            unique_positions.append(x)
    return np.sort(unique_positions)
```
-/

/-- One iteration of the outer loop of `remove_duplicate_lines`: append `x`
to the retained list unless some already-retained `ux` is within
`tolerance` of it. -/
def addIfNew (tolerance : ℚ) (unique_positions : List ℚ) (x : ℚ) : List ℚ :=
  if unique_positions.any (fun ux => |x - ux| < tolerance) then unique_positions
  else unique_positions ++ [x]

/-- `remove_duplicate_lines`: drop values within `tolerance` of an earlier
retained value, then sort ascending (`np.sort`). -/
def remove_duplicate_lines (x_positions : List ℚ) (tolerance : ℚ) : List ℚ :=
  List.insertionSort (· ≤ ·) (x_positions.foldl (addIfNew tolerance) [])

/-- All pairs of distinct values in `l` are at least `t` apart. -/
def Separated (t : ℚ) (l : List ℚ) : Prop :=
  ∀ a ∈ l, ∀ b ∈ l, a ≠ b → t ≤ |a - b|

theorem separated_addIfNew {t : ℚ} {acc : List ℚ} (h : Separated t acc) (x : ℚ) :
    Separated t (addIfNew t acc x) := by
  by_cases hdup : acc.any (fun ux => |x - ux| < t) = true
  · simp only [addIfNew, if_pos hdup]; exact h
  · simp only [addIfNew, if_neg hdup]
    rw [List.any_eq_true] at hdup
    push_neg at hdup
    intro a ha b hb hab
    simp only [List.mem_append, List.mem_singleton] at ha hb
    rcases ha with ha | ha <;> rcases hb with hb | hb
    · exact h a ha b hb hab
    · subst hb
      have := hdup a ha
      simp only [ne_eq, decide_eq_true_eq, not_lt] at this
      rwa [abs_sub_comm] at this
    · subst ha
      have := hdup b hb
      simp only [ne_eq, decide_eq_true_eq, not_lt] at this
      exact this
    · subst ha; subst hb; exact absurd rfl hab

theorem separated_foldl (t : ℚ) (xs : List ℚ) {acc : List ℚ} (h : Separated t acc) :
    Separated t (xs.foldl (addIfNew t) acc) := by
  induction xs generalizing acc with
  | nil => simpa using h
  | cons x xs ih => exact ih (separated_addIfNew h x)

theorem mem_remove_duplicate_lines_iff (xs : List ℚ) (t : ℚ) (a : ℚ) :
    a ∈ remove_duplicate_lines xs t ↔ a ∈ xs.foldl (addIfNew t) [] := by
  unfold remove_duplicate_lines
  exact (List.perm_insertionSort _ _).mem_iff

theorem separated_remove_duplicate_lines (xs : List ℚ) (t : ℚ) :
    Separated t (remove_duplicate_lines xs t) := by
  intro a ha b hb hab
  rw [mem_remove_duplicate_lines_iff] at ha hb
  exact separated_foldl t xs (by intro a ha; simp at ha) a ha b hb hab

/-- C3.  Every two distinct values retained by `remove_duplicate_lines`
differ by at least the tolerance; in particular two input values that are
within the tolerance of each other are never both retained. -/
theorem remove_duplicate_lines_separated (xs : List ℚ) (t : ℚ) :
    (∀ a ∈ remove_duplicate_lines xs t, ∀ b ∈ remove_duplicate_lines xs t,
        a ≠ b → t ≤ |a - b|) ∧
    (∀ a b : ℚ, a ∈ xs → b ∈ xs → a ≠ b → |a - b| < t →
        ¬(a ∈ remove_duplicate_lines xs t ∧ b ∈ remove_duplicate_lines xs t)) := by
  have hsep := separated_remove_duplicate_lines xs t
  refine ⟨hsep, ?_⟩
  intro a b _ _ hab hlt ⟨ha, hb⟩
  exact absurd hlt (not_lt.mpr (hsep a ha b hb hab))

/-- Witness for C3 at a concrete input: `0` and `10⁻⁹` are within the
default tolerance `10⁻⁸`, so they are not both retained. -/
theorem remove_duplicate_lines_separated_witness :
    ¬((0 : ℚ) ∈ remove_duplicate_lines [0, 1 / 10 ^ 9] (1 / 10 ^ 8) ∧
      (1 / 10 ^ 9 : ℚ) ∈ remove_duplicate_lines [0, 1 / 10 ^ 9] (1 / 10 ^ 8)) :=
  (remove_duplicate_lines_separated [0, 1 / 10 ^ 9] (1 / 10 ^ 8)).2 0 (1 / 10 ^ 9)
    (by simp) (by simp) (by norm_num) (by rw [abs_of_nonpos (by norm_num)]; norm_num)

theorem nodup_addIfNew {t : ℚ} (ht : 0 < t) {acc : List ℚ} (h : acc.Nodup) (x : ℚ) :
    (addIfNew t acc x).Nodup := by
  by_cases hdup : acc.any (fun ux => |x - ux| < t) = true
  · simpa only [addIfNew, if_pos hdup] using h
  · simp only [addIfNew, if_neg hdup]
    have hx : x ∉ acc := by
      intro hmem
      exact hdup (List.any_eq_true.mpr ⟨x, hmem, by simpa using ht⟩)
    simp [List.nodup_append, h, hx]

theorem nodup_foldl_addIfNew {t : ℚ} (ht : 0 < t) (xs : List ℚ) :
    ∀ {acc : List ℚ}, acc.Nodup → (xs.foldl (addIfNew t) acc).Nodup := by
  induction xs with
  | nil => intro acc h; simpa using h
  | cons x xs ih => intro acc h; exact ih (nodup_addIfNew ht h x)

theorem foldl_addIfNew_eq {t : ℚ} :
    ∀ (l acc : List ℚ), (∀ x ∈ l, ∀ u ∈ acc, ¬(|x - u| < t)) →
      l.Pairwise (fun u x => ¬(|x - u| < t)) →
      l.foldl (addIfNew t) acc = acc ++ l := by
  intro l
  induction l with
  | nil => intro acc _ _; simp
  | cons x l ih =>
    intro acc hacc hpw
    have hany : acc.any (fun ux => |x - ux| < t) ≠ true := by
      intro h
      obtain ⟨u, hu, hlt⟩ := List.any_eq_true.mp h
      exact hacc x (by simp) u hu (by simpa using hlt)
    rw [List.pairwise_cons] at hpw
    have step : addIfNew t acc x = acc ++ [x] := by
      simp only [addIfNew, if_neg hany]
    rw [List.foldl_cons, step, ih (acc ++ [x]) ?_ hpw.2]
    · simp
    · intro y hy u hu
      rcases List.mem_append.mp hu with hu | hu
      · exact hacc y (by simp [hy]) u hu
      · rw [List.mem_singleton] at hu
        subst hu
        exact hpw.1 y hy

theorem pairwise_of_all {R : ℚ → ℚ → Prop} (h : ∀ a b : ℚ, R a b) :
    ∀ l : List ℚ, l.Pairwise R := by
  intro l
  induction l with
  | nil => exact List.Pairwise.nil
  | cons x l ih => exact List.Pairwise.cons (fun b _ => h x b) ih

/-- C4.  `remove_duplicate_lines` is idempotent, returns a list sorted in
ascending order, and maps the empty list to the empty list. -/
theorem remove_duplicate_lines_props (xs : List ℚ) (t : ℚ) :
    remove_duplicate_lines (remove_duplicate_lines xs t) t = remove_duplicate_lines xs t ∧
    List.Sorted (· ≤ ·) (remove_duplicate_lines xs t) ∧
    remove_duplicate_lines ([] : List ℚ) t = [] := by
  have hsorted : List.Sorted (· ≤ ·) (remove_duplicate_lines xs t) :=
    List.sorted_insertionSort _ _
  refine ⟨?_, hsorted, rfl⟩
  set r := remove_duplicate_lines xs t with hr
  have hpw : r.Pairwise (fun u x => ¬(|x - u| < t)) := by
    rcases le_or_lt t 0 with ht | ht
    · exact pairwise_of_all (fun a b => not_lt.mpr (ht.trans (abs_nonneg (b - a)))) r
    · have hnd : r.Nodup := by
        rw [hr, remove_duplicate_lines]
        exact ((List.perm_insertionSort _ _).nodup_iff).mpr
          (nodup_foldl_addIfNew ht xs List.nodup_nil)
      have hsep := separated_remove_duplicate_lines xs t
      refine hnd.imp_of_mem ?_
      intro a b ha hb hab
      rw [abs_sub_comm]
      exact not_lt.mpr (hsep a ha b hb hab)
  have hfold : r.foldl (addIfNew t) [] = r :=
    foldl_addIfNew_eq r [] (by intro x _ u hu; simp at hu) hpw
  rw [remove_duplicate_lines, hfold]
  exact hsorted.insertionSort_eq

/-! ## aims_kpoints_grid.find_homo_lumo_indices

Python:
```
def find_homo_lumo_indices(occupations):
    occupations = np.array(occupations)
    n_kpoints, n_bands = occupations.shape
    homo_idx = -1
    for i in range(n_bands-1, -1, -1):
        if np.any(occupations[:, i] > 0.5):
            homo_idx = i
            break
    lumo_idx = -1
    for i in range(n_bands):
        if np.all(occupations[:, i] < 0.5):
            lumo_idx = i
            break
    return homo_idx, lumo_idx
```
The occupation matrix is a list of k-point rows; `n_bands` is the row
width (`shape` requires a rectangular, non-empty matrix, which the
theorems assume as hypotheses). -/

/-- Number of bands: the width of the (rectangular) occupation matrix. -/
def n_bands (occupations : List (List ℚ)) : ℕ := (occupations.headD []).length

/-- `np.any(occupations[:, i] > 0.5)`. -/
def anyAbove (occupations : List (List ℚ)) (i : ℕ) : Bool :=
  occupations.any (fun row => (1 / 2 : ℚ) < row.getD i 0)

/-- `np.all(occupations[:, i] < 0.5)`. -/
def allBelow (occupations : List (List ℚ)) (i : ℕ) : Bool :=
  occupations.all (fun row => row.getD i 0 < (1 / 2 : ℚ))

/-- A `for`-loop with `break`: the first index in `l` satisfying `p`,
or `-1` when none does. -/
def firstSat (p : ℕ → Bool) : List ℕ → ℤ
  | [] => -1
  | i :: is => if p i then (i : ℤ) else firstSat p is

/-- `find_homo_lumo_indices`: scan band indices downwards for the HOMO,
upwards for the LUMO. -/
def find_homo_lumo_indices (occupations : List (List ℚ)) : ℤ × ℤ :=
  (firstSat (anyAbove occupations) (List.range (n_bands occupations)).reverse,
   firstSat (allBelow occupations) (List.range (n_bands occupations)))

theorem firstSat_of_all_false {p : ℕ → Bool} :
    ∀ {l : List ℕ}, (∀ i ∈ l, p i = false) → firstSat p l = -1 := by
  intro l
  induction l with
  | nil => intro _; rfl
  | cons i is ih =>
    intro h
    have hi : p i = false := h i (by simp)
    rw [firstSat, hi]
    exact ih (fun j hj => h j (by simp [hj]))

/-- On a list whose elements are strictly decreasing, `firstSat` returns
either `-1` (no element satisfies `p`) or the largest element of the list
satisfying `p`. -/
theorem firstSat_decreasing {p : ℕ → Bool} :
    ∀ {l : List ℕ}, l.Pairwise (· > ·) →
      (firstSat p l = -1 ∧ ∀ i ∈ l, p i = false) ∨
      (∃ i ∈ l, firstSat p l = (i : ℤ) ∧ p i = true ∧
        ∀ j ∈ l, i < j → p j = false) := by
  intro l
  induction l with
  | nil => intro _; exact Or.inl ⟨rfl, by simp⟩
  | cons i is ih =>
    intro hpw
    rw [List.pairwise_cons] at hpw
    by_cases hi : p i = true
    · refine Or.inr ⟨i, by simp, by rw [firstSat, hi]; rfl, hi, ?_⟩
      intro j hj hij
      rcases List.mem_cons.mp hj with hj | hj
      · omega
      · exact absurd (hpw.1 j hj) (by omega)
    · rw [Bool.not_eq_true] at hi
      rcases ih hpw.2 with ⟨hval, hall⟩ | ⟨k, hk, hval, hpk, hmax⟩
      · refine Or.inl ⟨by rw [firstSat, hi]; exact hval, ?_⟩
        intro j hj
        rcases List.mem_cons.mp hj with hj | hj
        · rwa [hj]
        · exact hall j hj
      · refine Or.inr ⟨k, by simp [hk], by rw [firstSat, hi]; exact hval, hpk, ?_⟩
        intro j hj hkj
        rcases List.mem_cons.mp hj with hj | hj
        · rwa [hj]
        · exact hmax j hj hkj

/-- On a list whose elements are strictly increasing, `firstSat` returns
either `-1` (no element satisfies `p`) or the smallest element of the list
satisfying `p`. -/
theorem firstSat_increasing {p : ℕ → Bool} :
    ∀ {l : List ℕ}, l.Pairwise (· < ·) →
      (firstSat p l = -1 ∧ ∀ i ∈ l, p i = false) ∨
      (∃ i ∈ l, firstSat p l = (i : ℤ) ∧ p i = true ∧
        ∀ j ∈ l, j < i → p j = false) := by
  intro l
  induction l with
  | nil => intro _; exact Or.inl ⟨rfl, by simp⟩
  | cons i is ih =>
    intro hpw
    rw [List.pairwise_cons] at hpw
    by_cases hi : p i = true
    · refine Or.inr ⟨i, by simp, by rw [firstSat, hi]; rfl, hi, ?_⟩
      intro j hj hij
      rcases List.mem_cons.mp hj with hj | hj
      · omega
      · exact absurd (hpw.1 j hj) (by omega)
    · rw [Bool.not_eq_true] at hi
      rcases ih hpw.2 with ⟨hval, hall⟩ | ⟨k, hk, hval, hpk, hmin⟩
      · refine Or.inl ⟨by rw [firstSat, hi]; exact hval, ?_⟩
        intro j hj
        rcases List.mem_cons.mp hj with hj | hj
        · rwa [hj]
        · exact hall j hj
      · refine Or.inr ⟨k, by simp [hk], by rw [firstSat, hi]; exact hval, hpk, ?_⟩
        intro j hj hjk
        rcases List.mem_cons.mp hj with hj | hj
        · rwa [hj]
        · exact hmin j hj hjk

theorem anyAbove_iff (occ : List (List ℚ)) (i : ℕ) :
    anyAbove occ i = true ↔ ∃ row ∈ occ, (1 / 2 : ℚ) < row.getD i 0 := by
  simp [anyAbove]

theorem allBelow_iff (occ : List (List ℚ)) (i : ℕ) :
    allBelow occ i = true ↔ ∀ row ∈ occ, row.getD i 0 < (1 / 2 : ℚ) := by
  simp [allBelow]

/-- C1.  For a non-empty rectangular occupation matrix, the HOMO index is
the largest band index at which some k-point occupation exceeds `0.5` and
the LUMO index is the smallest band index at which every k-point occupation
is below `0.5`; each index is `-1` when no band qualifies. -/
theorem find_homo_lumo_indices_spec (occ : List (List ℚ)) (hne : occ ≠ [])
    (hrect : ∀ row ∈ occ, row.length = n_bands occ) :
    (((find_homo_lumo_indices occ).1 = -1 ∧
        ∀ i < n_bands occ, ¬∃ row ∈ occ, (1 / 2 : ℚ) < row.getD i 0) ∨
      (∃ i < n_bands occ, (find_homo_lumo_indices occ).1 = (i : ℤ) ∧
        (∃ row ∈ occ, (1 / 2 : ℚ) < row.getD i 0) ∧
        ∀ j, i < j → j < n_bands occ → ¬∃ row ∈ occ, (1 / 2 : ℚ) < row.getD j 0)) ∧
    (((find_homo_lumo_indices occ).2 = -1 ∧
        ∀ i < n_bands occ, ¬∀ row ∈ occ, row.getD i 0 < (1 / 2 : ℚ)) ∨
      (∃ i < n_bands occ, (find_homo_lumo_indices occ).2 = (i : ℤ) ∧
        (∀ row ∈ occ, row.getD i 0 < (1 / 2 : ℚ)) ∧
        ∀ j, j < i → ¬∀ row ∈ occ, row.getD j 0 < (1 / 2 : ℚ))) := by
  constructor
  · have hpw : (List.range (n_bands occ)).reverse.Pairwise (· > ·) := by
      rw [List.pairwise_reverse]
      exact List.pairwise_lt_range _
    rcases firstSat_decreasing (p := anyAbove occ) hpw with ⟨hval, hall⟩ | ⟨i, hi, hval, hp, hmax⟩
    · refine Or.inl ⟨hval, ?_⟩
      intro i hilt hex
      have := hall i (by simp [hilt])
      rw [← anyAbove_iff] at hex
      simp [this] at hex
    · simp only [List.mem_reverse, List.mem_range] at hi hmax
      refine Or.inr ⟨i, hi, hval, (anyAbove_iff occ i).mp hp, ?_⟩
      intro j hij hjlt hex
      have := hmax j (by simp [hjlt]) hij
      rw [← anyAbove_iff] at hex
      simp [this] at hex
  · rcases firstSat_increasing (p := allBelow occ) (List.pairwise_lt_range _)
      with ⟨hval, hall⟩ | ⟨i, hi, hval, hp, hmin⟩
    · refine Or.inl ⟨hval, ?_⟩
      intro i hilt hex
      have := hall i (by simp [hilt])
      rw [← allBelow_iff] at hex
      simp [this] at hex
    · simp only [List.mem_range] at hi hmin
      refine Or.inr ⟨i, hi, hval, (allBelow_iff occ i).mp hp, ?_⟩
      intro j hji hex
      have := hmin j (by omega) hji
      rw [← allBelow_iff] at hex
      simp [this] at hex

/-- Witness for C1 at the matrix `[[1, 0]]`: one k-point, band 0 occupied,
band 1 empty. -/
theorem find_homo_lumo_indices_spec_witness :
    ([[(1 : ℚ), 0]] ≠ []) ∧
    ((((find_homo_lumo_indices [[(1 : ℚ), 0]]).1 = -1 ∧
        ∀ i < n_bands [[(1 : ℚ), 0]],
          ¬∃ row ∈ [[(1 : ℚ), 0]], (1 / 2 : ℚ) < row.getD i 0) ∨
      (∃ i < n_bands [[(1 : ℚ), 0]],
        (find_homo_lumo_indices [[(1 : ℚ), 0]]).1 = (i : ℤ) ∧
        (∃ row ∈ [[(1 : ℚ), 0]], (1 / 2 : ℚ) < row.getD i 0) ∧
        ∀ j, i < j → j < n_bands [[(1 : ℚ), 0]] →
          ¬∃ row ∈ [[(1 : ℚ), 0]], (1 / 2 : ℚ) < row.getD j 0)) ∧
    (((find_homo_lumo_indices [[(1 : ℚ), 0]]).2 = -1 ∧
        ∀ i < n_bands [[(1 : ℚ), 0]],
          ¬∀ row ∈ [[(1 : ℚ), 0]], row.getD i 0 < (1 / 2 : ℚ)) ∨
      (∃ i < n_bands [[(1 : ℚ), 0]],
        (find_homo_lumo_indices [[(1 : ℚ), 0]]).2 = (i : ℤ) ∧
        (∀ row ∈ [[(1 : ℚ), 0]], row.getD i 0 < (1 / 2 : ℚ)) ∧
        ∀ j, j < i → ¬∀ row ∈ [[(1 : ℚ), 0]], row.getD j 0 < (1 / 2 : ℚ)))) :=
  ⟨by simp, find_homo_lumo_indices_spec [[(1 : ℚ), 0]] (by simp)
    (by intro row hrow; simp only [List.mem_singleton] at hrow; subst hrow; rfl)⟩

/-- C10.  A band occupied at exactly `0.5` and nowhere above it is skipped
by both scans (the HOMO scan needs a strict `> 0.5`, the LUMO scan a strict
`< 0.5` everywhere), so a non-empty rectangular matrix whose every entry is
exactly `0.5` yields `(-1, -1)`. -/
theorem find_homo_lumo_indices_half (occ : List (List ℚ)) (hne : occ ≠ [])
    (hrect : ∀ row ∈ occ, row.length = n_bands occ)
    (hhalf : ∀ row ∈ occ, ∀ x ∈ row, x = (1 / 2 : ℚ)) :
    (∀ occ' : List (List ℚ), ∀ i : ℕ,
      ((∀ row ∈ occ', row.getD i 0 ≤ (1 / 2 : ℚ)) → anyAbove occ' i = false) ∧
      ((∃ row ∈ occ', row.getD i 0 = (1 / 2 : ℚ)) → allBelow occ' i = false)) ∧
    find_homo_lumo_indices occ = (-1, -1) := by
  have hgetD : ∀ row ∈ occ, ∀ i : ℕ, row.getD i 0 = (1 / 2 : ℚ) ∨ row.getD i 0 = 0 := by
    intro row hrow i
    by_cases hi : i < row.length
    · left
      rw [List.getD_eq_getElem _ _ hi]
      exact hhalf row hrow _ (List.getElem_mem hi)
    · right
      rw [List.getD_eq_default _ _ (by omega)]
  constructor
  · intro occ' i
    constructor
    · intro hle
      rw [← Bool.not_eq_true, anyAbove_iff]
      rintro ⟨row, hrow, hlt⟩
      exact absurd hlt (not_lt.mpr (hle row hrow))
    · rintro ⟨row, hrow, heq⟩
      rw [← Bool.not_eq_true, allBelow_iff]
      intro hall
      exact absurd (hall row hrow) (by rw [heq]; exact lt_irrefl _)
  · obtain ⟨r0, rest, hocc⟩ : ∃ r0 rest, occ = r0 :: rest := by
      cases occ with
      | nil => exact absurd rfl hne
      | cons r0 rest => exact ⟨r0, rest, rfl⟩
    have hhomo : ∀ i ∈ (List.range (n_bands occ)).reverse, anyAbove occ i = false := by
      intro i _
      rw [← Bool.not_eq_true, anyAbove_iff]
      rintro ⟨row, hrow, hlt⟩
      rcases hgetD row hrow i with h | h <;> rw [h] at hlt <;> norm_num at hlt
    have hlumo : ∀ i ∈ List.range (n_bands occ), allBelow occ i = false := by
      intro i hi
      rw [List.mem_range] at hi
      rw [← Bool.not_eq_true, allBelow_iff]
      intro hall
      have hr0 : r0 ∈ occ := by rw [hocc]; simp
      have hlen : r0.length = n_bands occ := hrect r0 hr0
      have hval : r0.getD i 0 = (1 / 2 : ℚ) := by
        rw [List.getD_eq_getElem _ _ (by omega)]
        exact hhalf r0 hr0 _ (List.getElem_mem (by omega))
      have := hall r0 hr0
      rw [hval] at this
      exact absurd this (lt_irrefl _)
    rw [find_homo_lumo_indices, firstSat_of_all_false hhomo, firstSat_of_all_false hlumo]

/-- Witness for C10 at the matrix `[[1/2]]`. -/
theorem find_homo_lumo_indices_half_witness :
    ([[(1 / 2 : ℚ)]] ≠ []) ∧
    ((∀ occ' : List (List ℚ), ∀ i : ℕ,
      ((∀ row ∈ occ', row.getD i 0 ≤ (1 / 2 : ℚ)) → anyAbove occ' i = false) ∧
      ((∃ row ∈ occ', row.getD i 0 = (1 / 2 : ℚ)) → allBelow occ' i = false)) ∧
    find_homo_lumo_indices [[(1 / 2 : ℚ)]] = (-1, -1)) :=
  ⟨by simp, find_homo_lumo_indices_half [[(1 / 2 : ℚ)]] (by simp)
    (by intro row hrow; simp only [List.mem_singleton] at hrow; subst hrow; rfl)
    (by intro row hrow; simp only [List.mem_singleton] at hrow; subst hrow;
        intro x hx; simpa using hx)⟩

/-! ## aims_kpoints_grid.parse_single_band_file

Python (per line, fields already split on whitespace and read as numbers):
```
for line in lines:
    parts = line.strip().split()
    if len(parts) < 4:
        continue
    kx, ky, kz = float(parts[1]), float(parts[2]), float(parts[3])
    kpoints.append([kx, ky, kz])
    band_data = parts[4:]
    occs, eigs = [], []
    for i in range(0, len(band_data), 2):
        if i+1 < len(band_data):
            occs.append(float(band_data[i]))
            eigs.append(float(band_data[i+1]))
    occupations.append(occs)
    eigenvalues.append(eigs)
```
A line is modelled as its list of numeric fields. -/

/-- The inner loop over `band_data` with stride 2: consume columns
pairwise, dropping a trailing unpaired column. -/
def takePairs : List ℚ → List (ℚ × ℚ)
  | a :: b :: rest => (a, b) :: takePairs rest
  | _ => []

/-- Processing of a single band-file line: `none` when the line has fewer
than 4 fields (the `continue`), otherwise the k-point from fields 1-3 and
the parallel occupation/eigenvalue lists from the columns after the fourth. -/
def parseLine (parts : List ℚ) : Option ((ℚ × ℚ × ℚ) × List ℚ × List ℚ) :=
  if parts.length < 4 then none
  else
    some ((parts.getD 1 0, parts.getD 2 0, parts.getD 3 0),
      (takePairs (parts.drop 4)).map Prod.fst,
      (takePairs (parts.drop 4)).map Prod.snd)

/-- `parse_single_band_file` over the (already field-split) lines of one
band file: parallel lists of k-points, occupation rows and eigenvalue rows. -/
def parse_single_band_file :
    List (List ℚ) → List (ℚ × ℚ × ℚ) × List (List ℚ) × List (List ℚ)
  | [] => ([], [], [])
  | parts :: rest =>
    match parseLine parts, parse_single_band_file rest with
    | none, acc => acc
    | some (k, occs, eigs), (ks, os, es) => (k :: ks, occs :: os, eigs :: es)

theorem takePairs_length : ∀ l : List ℚ, (takePairs l).length = l.length / 2
  | [] => rfl
  | [_] => by
    rw [takePairs]
    · simp
    · intro a b rest h
      simp at h
  | _ :: _ :: rest => by
    rw [takePairs, List.length_cons, takePairs_length rest]
    simp only [List.length_cons]
    omega

/-- C5.  A line with fewer than 4 fields is skipped, contributing no
k-point, occupation row or eigenvalue row; a line with `n ≥ 4` fields
contributes exactly one k-point, read from fields 1-3, and occupation and
eigenvalue rows of exactly `⌊(n - 4) / 2⌋` entries each (a trailing
unpaired column is dropped). -/
theorem parse_single_band_file_line (parts : List ℚ) (rest : List (List ℚ)) :
    (parts.length < 4 →
      parse_single_band_file (parts :: rest) = parse_single_band_file rest) ∧
    (4 ≤ parts.length →
      ∃ os es : List ℚ,
        parse_single_band_file (parts :: rest) =
          ((parts.getD 1 0, parts.getD 2 0, parts.getD 3 0) ::
              (parse_single_band_file rest).1,
            os :: (parse_single_band_file rest).2.1,
            es :: (parse_single_band_file rest).2.2) ∧
        os.length = (parts.length - 4) / 2 ∧ es.length = (parts.length - 4) / 2) := by
  constructor
  · intro h4
    have hnone : parseLine parts = none := by simp [parseLine, if_pos h4]
    rw [parse_single_band_file, hnone]
  · intro h4
    have hsome : parseLine parts =
        some ((parts.getD 1 0, parts.getD 2 0, parts.getD 3 0),
          (takePairs (parts.drop 4)).map Prod.fst,
          (takePairs (parts.drop 4)).map Prod.snd) := by
      simp [parseLine, if_neg (not_lt.mpr h4)]
    refine ⟨(takePairs (parts.drop 4)).map Prod.fst,
      (takePairs (parts.drop 4)).map Prod.snd, ?_, ?_, ?_⟩
    · rw [parse_single_band_file, hsome]
    · rw [List.length_map, takePairs_length, List.length_drop]
    · rw [List.length_map, takePairs_length, List.length_drop]

/-- Witness for C5: a 3-field line is skipped, and a 7-field line yields
one k-point and one (occupation, eigenvalue) pair, dropping the seventh
column. -/
theorem parse_single_band_file_line_witness :
    (([0, 1, 2] : List ℚ).length < 4 ∧
      parse_single_band_file [[0, 1, 2]] = parse_single_band_file []) ∧
    (4 ≤ ([0, 1, 2, 3, 4, 5, 6] : List ℚ).length ∧
      ∃ os es : List ℚ,
        parse_single_band_file [[0, 1, 2, 3, 4, 5, 6]] =
          ((([0, 1, 2, 3, 4, 5, 6] : List ℚ).getD 1 0,
            ([0, 1, 2, 3, 4, 5, 6] : List ℚ).getD 2 0,
            ([0, 1, 2, 3, 4, 5, 6] : List ℚ).getD 3 0) ::
              (parse_single_band_file []).1,
            os :: (parse_single_band_file []).2.1,
            es :: (parse_single_band_file []).2.2) ∧
        os.length = (([0, 1, 2, 3, 4, 5, 6] : List ℚ).length - 4) / 2 ∧
        es.length = (([0, 1, 2, 3, 4, 5, 6] : List ℚ).length - 4) / 2) :=
  ⟨⟨by simp, (parse_single_band_file_line [0, 1, 2] []).1 (by simp)⟩,
   ⟨by simp, (parse_single_band_file_line [0, 1, 2, 3, 4, 5, 6] []).2 (by simp)⟩⟩

/-! ## aims_kpoints_grid.parse_band_files

Python:
```
def parse_band_files(directory=".", soc=False):
    if soc:
        band_files = sorted(glob.glob(f"band*.out"))
        band_files = [f for f in band_files if not f.endswith('.no_soc')]
    else:
        band_files = sorted(glob.glob(f"band*.out"))
    if not band_files:
        raise ValueError("No band files found in directory")
    ...
    for band_file in band_files:
        kpoints, eigenvalues, occupations = parse_single_band_file(band_file)
        all_kpoints.extend(kpoints) ...
```
The directory is modelled as a list of file names together with a map from
file name to (field-split) file contents. -/

/-- `str.endswith(suf)` on file names given as character lists. -/
def listEndsWith (suf l : List Char) : Bool :=
  List.isPrefixOf suf.reverse l.reverse

/-- The glob pattern `band*.out`: a name matches exactly when it starts
with `band` and ends with `.out` (any such name has length at least 8, so
the two affixes cannot overlap). -/
def matchesBandPattern (f : List Char) : Bool :=
  List.isPrefixOf ['b', 'a', 'n', 'd'] f && listEndsWith ['.', 'o', 'u', 't'] f

/-- The characters of the suffix `.no_soc`. -/
def noSocSuffix : List Char := ['.', 'n', 'o', '_', 's', 'o', 'c']

/-- `parse_band_files`: select the band files of the directory (for SOC
runs, additionally drop `.no_soc` files), raise when none match, and
concatenate the per-file parses in sorted file order. -/
def parse_band_files (files : List (List Char))
    (contents : List Char → List (List ℚ)) (soc : Bool) :
    Except String (List (ℚ × ℚ × ℚ) × List (List ℚ) × List (List ℚ)) :=
  let globbed := List.insertionSort (· ≤ ·) (files.filter matchesBandPattern)
  let band_files :=
    if soc then globbed.filter (fun f => !(listEndsWith noSocSuffix f)) else globbed
  if band_files.isEmpty then Except.error "No band files found in directory"
  else
    Except.ok (band_files.foldr (fun f acc =>
      ((parse_single_band_file (contents f)).1 ++ acc.1,
       (parse_single_band_file (contents f)).2.1 ++ acc.2.1,
       (parse_single_band_file (contents f)).2.2 ++ acc.2.2)) ([], [], []))

/-- C6.  When no file of the directory matches the `band*.out` selection
pattern, `parse_band_files` raises, in SOC mode and in non-SOC mode alike. -/
theorem parse_band_files_error_of_no_match (files : List (List Char))
    (contents : List Char → List (List ℚ)) (soc : Bool)
    (h : ∀ f ∈ files, matchesBandPattern f = false) :
    parse_band_files files contents soc =
      Except.error "No band files found in directory" := by
  have hfilter : files.filter matchesBandPattern = [] := by
    rw [List.filter_eq_nil_iff]
    intro f hf
    simp [h f hf]
  rw [parse_band_files]
  simp only [hfilter]
  cases soc <;> rfl

/-- Witness for C6: a directory holding only `aims.out` and `geometry.in`
has no band file, in either mode. -/
theorem parse_band_files_error_of_no_match_witness :
    parse_band_files [['a', 'i', 'm', 's', '.', 'o', 'u', 't'],
        ['g', 'e', 'o', 'm', 'e', 't', 'r', 'y', '.', 'i', 'n']] (fun _ => []) true =
      Except.error "No band files found in directory" ∧
    parse_band_files [['a', 'i', 'm', 's', '.', 'o', 'u', 't'],
        ['g', 'e', 'o', 'm', 'e', 't', 'r', 'y', '.', 'i', 'n']] (fun _ => []) false =
      Except.error "No band files found in directory" :=
  ⟨parse_band_files_error_of_no_match _ _ true (by decide),
   parse_band_files_error_of_no_match _ _ false (by decide)⟩

/-! ## aims_kpoints_grid.read_vbm_cbm_from_output / read_fermi_energy

Both functions scan the log line by line, toggling an `in_soc_section`
flag on the marker line `STARTING SECOND VARIATIONAL SOC CALCULATION` and
filtering the marker matches by the requested mode.  A log line is
modelled by the only features the code inspects: which marker substrings
it contains, the float parse of its second-to-last token
(`float(line.split()[-2])`, `none` when that call would raise), and the
first match of the float regex (`none` when the regex finds nothing).
The whole body of each reader runs inside `try/except`; a raised parse
error is modelled by a sticky `err` flag and mapped to the `(None, None)`
result, and the `break` of `read_fermi_energy` by a sticky `done` flag.
A missing output file is the `none` input. -/

structure LogLine where
  hasSOCMarker : Bool
  hasVBM : Bool
  hasCBM : Bool
  hasFermi : Bool
  hasMDFermi : Bool
  secondLast : Option ℚ
  regexValue : Option ℚ
  deriving DecidableEq

structure VbmState where
  err : Bool
  in_soc : Bool
  vbm : Option ℚ
  cbm : Option ℚ
  deriving DecidableEq

/-- One line of the scan of `read_vbm_cbm_from_output`. -/
def vbmStep (soc : Bool) (s : VbmState) (l : LogLine) : VbmState :=
  if s.err then s
  else
    let flag := s.in_soc || l.hasSOCMarker
    if (soc && flag) || (!soc && !flag) then
      if l.hasVBM || l.hasCBM then
        match l.secondLast with
        | none => { s with err := true, in_soc := flag }
        | some v =>
          { s with
            in_soc := flag,
            vbm := if l.hasVBM then some v else s.vbm,
            cbm := if l.hasCBM then some v else s.cbm }
      else { s with in_soc := flag }
    else { s with in_soc := flag }

/-- `read_vbm_cbm_from_output`: `(None, None)` when the file is missing or
any scanned marker line fails to parse; otherwise the last matching VBM
and CBM values of the requested section. -/
def read_vbm_cbm_from_output (file : Option (List LogLine)) (soc : Bool) :
    Option ℚ × Option ℚ :=
  match file with
  | none => (none, none)
  | some lines =>
    let s := lines.foldl (vbmStep soc) ⟨false, false, none, none⟩
    if s.err then (none, none) else (s.vbm, s.cbm)

structure FermiState where
  done : Bool
  in_soc : Bool
  fermi : Option ℚ
  deriving DecidableEq

/-- One line of the scan of `read_fermi_energy` (`done` models the
`break` of the non-SOC branch). -/
def fermiStep (soc : Bool) (s : FermiState) (l : LogLine) : FermiState :=
  if s.done then s
  else
    let flag := s.in_soc || l.hasSOCMarker
    if soc && flag then
      if l.hasFermi then
        match l.regexValue with
        | some v => { done := false, in_soc := flag, fermi := some v }
        | none => { s with in_soc := flag }
      else { s with in_soc := flag }
    else if !soc && !flag then
      if l.hasFermi then
        match l.regexValue with
        | some v => { done := true, in_soc := flag, fermi := some v }
        | none => { s with in_soc := flag }
      else if l.hasMDFermi then
        match l.regexValue with
        | some v => { done := true, in_soc := flag, fermi := some v }
        | none => { s with in_soc := flag }
      else { s with in_soc := flag }
    else { s with in_soc := flag }

/-- `read_fermi_energy`: `None` when no output file was found, otherwise
the value found by the filtered scan (`None` when no marker matched). -/
def read_fermi_energy (file : Option (List LogLine)) (soc : Bool) : Option ℚ :=
  match file with
  | none => none
  | some lines => (lines.foldl (fermiStep soc) ⟨false, false, none⟩).fermi

theorem vbmStep_of_err {soc : Bool} {s : VbmState} (h : s.err = true) (l : LogLine) :
    vbmStep soc s l = s := by
  simp [vbmStep, h]

theorem fermiStep_of_done {soc : Bool} {s : FermiState} (h : s.done = true) (l : LogLine) :
    fermiStep soc s l = s := by
  simp [fermiStep, h]

theorem vbmStep_in_soc_mono (soc : Bool) (s : VbmState) (l : LogLine)
    (h : s.in_soc = true) : (vbmStep soc s l).in_soc = true := by
  unfold vbmStep
  by_cases he : s.err = true
  · simp [he, h]
  · rw [if_neg he]
    simp only [h, Bool.true_or]
    split
    · split
      · split <;> rfl
      · rfl
    · rfl

theorem fermiStep_in_soc_mono (soc : Bool) (s : FermiState) (l : LogLine)
    (h : s.in_soc = true) : (fermiStep soc s l).in_soc = true := by
  unfold fermiStep
  by_cases hd : s.done = true
  · simp [hd, h]
  · rw [if_neg hd]
    simp only [h, Bool.true_or]
    split
    · split
      · split <;> rfl
      · rfl
    · split
      · split
        · split <;> rfl
        · split
          · split <;> rfl
          · rfl
      · rfl

theorem foldl_vbmStep_in_soc_mono (soc : Bool) (lines : List LogLine) :
    ∀ {s : VbmState}, s.in_soc = true →
      (lines.foldl (vbmStep soc) s).in_soc = true := by
  induction lines with
  | nil => intro s h; simpa using h
  | cons l lines ih => intro s h; exact ih (vbmStep_in_soc_mono soc s l h)

theorem foldl_fermiStep_in_soc_mono (soc : Bool) (lines : List LogLine) :
    ∀ {s : FermiState}, s.in_soc = true →
      (lines.foldl (fermiStep soc) s).in_soc = true := by
  induction lines with
  | nil => intro s h; simpa using h
  | cons l lines ih => intro s h; exact ih (fermiStep_in_soc_mono soc s l h)

theorem vbmStep_marker (soc : Bool) (s : VbmState) (l : LogLine)
    (he : s.err = false) (hm : l.hasSOCMarker = true) :
    (vbmStep soc s l).in_soc = true := by
  unfold vbmStep
  rw [if_neg (by simp [he])]
  simp only [hm, Bool.or_true]
  split
  · split
    · split <;> rfl
    · rfl
  · rfl

theorem fermiStep_marker (soc : Bool) (s : FermiState) (l : LogLine)
    (hd : s.done = false) (hm : l.hasSOCMarker = true) :
    (fermiStep soc s l).in_soc = true := by
  unfold fermiStep
  rw [if_neg (by simp [hd])]
  simp only [hm, Bool.or_true]
  split
  · split
    · split <;> rfl
    · rfl
  · split
    · split
      · split <;> rfl
      · split
        · split <;> rfl
        · rfl
    · rfl

/-- In non-SOC mode a state already inside the SOC section is a fixed
point of the VBM/CBM scan. -/
theorem vbmStep_fix (s : VbmState) (l : LogLine) (h : s.in_soc = true) :
    vbmStep false s l = s := by
  unfold vbmStep
  by_cases he : s.err = true
  · rw [if_pos he]
  · rw [if_neg he]
    simp only [h, Bool.true_or, Bool.false_and, Bool.not_true, Bool.and_false,
      Bool.or_self, Bool.false_or]
    rw [if_neg (by simp)]
    cases s
    simp_all

/-- In non-SOC mode a state already inside the SOC section is a fixed
point of the Fermi scan. -/
theorem fermiStep_fix (s : FermiState) (l : LogLine) (h : s.in_soc = true) :
    fermiStep false s l = s := by
  unfold fermiStep
  by_cases hd : s.done = true
  · rw [if_pos hd]
  · rw [if_neg hd]
    simp only [h, Bool.true_or, Bool.false_and, Bool.not_true, Bool.and_false,
      Bool.not_false, Bool.true_and]
    rw [if_neg (by simp), if_neg (by simp)]
    cases s
    simp_all

theorem foldl_vbmStep_fix (lines : List LogLine) :
    ∀ {s : VbmState}, s.err = true ∨ s.in_soc = true →
      lines.foldl (vbmStep false) s = s := by
  induction lines with
  | nil => intro s _; rfl
  | cons l lines ih =>
    intro s h
    rcases h with h | h
    · rw [List.foldl_cons, vbmStep_of_err h l]
      exact ih (Or.inl h)
    · rw [List.foldl_cons, vbmStep_fix s l h]
      exact ih (Or.inr h)

theorem foldl_fermiStep_fix (lines : List LogLine) :
    ∀ {s : FermiState}, s.done = true ∨ s.in_soc = true →
      lines.foldl (fermiStep false) s = s := by
  induction lines with
  | nil => intro s _; rfl
  | cons l lines ih =>
    intro s h
    rcases h with h | h
    · rw [List.foldl_cons, fermiStep_of_done h l]
      exact ih (Or.inl h)
    · rw [List.foldl_cons, fermiStep_fix s l h]
      exact ih (Or.inr h)

theorem vbm_after_marker (pre : List LogLine) :
    ∀ {s : VbmState}, (∃ l ∈ pre, l.hasSOCMarker = true) ∨
        (s.err = true ∨ s.in_soc = true) →
      (pre.foldl (vbmStep false) s).err = true ∨
        (pre.foldl (vbmStep false) s).in_soc = true := by
  induction pre with
  | nil =>
    intro s h
    rcases h with ⟨l, hl, _⟩ | h
    · simp at hl
    · simpa using h
  | cons l pre ih =>
    intro s h
    rw [List.foldl_cons]
    rcases h with ⟨m, hm, hmark⟩ | (h | h)
    · rcases List.mem_cons.mp hm with rfl | hm
      · by_cases he : s.err = true
        · rw [vbmStep_of_err he]
          exact ih (Or.inr (Or.inl he))
        · exact ih (Or.inr (Or.inr (vbmStep_marker false s m
            (Bool.not_eq_true _ ▸ he) hmark)))
      · exact ih (Or.inl ⟨m, hm, hmark⟩)
    · rw [vbmStep_of_err h]
      exact ih (Or.inr (Or.inl h))
    · exact ih (Or.inr (Or.inr (vbmStep_in_soc_mono false s l h)))

theorem fermi_after_marker (pre : List LogLine) :
    ∀ {s : FermiState}, (∃ l ∈ pre, l.hasSOCMarker = true) ∨
        (s.done = true ∨ s.in_soc = true) →
      (pre.foldl (fermiStep false) s).done = true ∨
        (pre.foldl (fermiStep false) s).in_soc = true := by
  induction pre with
  | nil =>
    intro s h
    rcases h with ⟨l, hl, _⟩ | h
    · simp at hl
    · simpa using h
  | cons l pre ih =>
    intro s h
    rw [List.foldl_cons]
    rcases h with ⟨m, hm, hmark⟩ | (h | h)
    · rcases List.mem_cons.mp hm with rfl | hm
      · by_cases hd : s.done = true
        · rw [fermiStep_of_done hd]
          exact ih (Or.inr (Or.inl hd))
        · exact ih (Or.inr (Or.inr (fermiStep_marker false s m
            (Bool.not_eq_true _ ▸ hd) hmark)))
      · exact ih (Or.inl ⟨m, hm, hmark⟩)
    · rw [fermiStep_of_done h]
      exact ih (Or.inr (Or.inl h))
    · exact ih (Or.inr (Or.inr (fermiStep_in_soc_mono false s l h)))

theorem vbmStep_no_marker {l : LogLine} (hv : l.hasVBM = false)
    (hc : l.hasCBM = false) (soc : Bool) (s : VbmState) :
    (vbmStep soc s l).vbm = s.vbm ∧ (vbmStep soc s l).cbm = s.cbm ∧
    (vbmStep soc s l).err = s.err := by
  unfold vbmStep
  by_cases he : s.err = true
  · rw [if_pos he]
    exact ⟨rfl, rfl, rfl⟩
  · rw [if_neg he]
    simp only [hv, hc, Bool.or_self, Bool.false_eq_true, if_false, ite_self]
    exact ⟨trivial, trivial, trivial⟩

theorem foldl_vbmStep_no_marker (soc : Bool) (lines : List LogLine)
    (h : ∀ l ∈ lines, l.hasVBM = false ∧ l.hasCBM = false) :
    ∀ s : VbmState, (lines.foldl (vbmStep soc) s).vbm = s.vbm ∧
      (lines.foldl (vbmStep soc) s).cbm = s.cbm ∧
      (lines.foldl (vbmStep soc) s).err = s.err := by
  induction lines with
  | nil => intro s; exact ⟨rfl, rfl, rfl⟩
  | cons l lines ih =>
    intro s
    have hl := h l (by simp)
    have hstep := vbmStep_no_marker hl.1 hl.2 soc s
    have hrest := ih (fun m hm => h m (by simp [hm])) (vbmStep soc s l)
    rw [List.foldl_cons]
    exact ⟨hrest.1.trans hstep.1, hrest.2.1.trans hstep.2.1,
      hrest.2.2.trans hstep.2.2⟩

theorem fermiStep_no_marker {l : LogLine} (hf : l.hasFermi = false)
    (hmd : l.hasMDFermi = false) (soc : Bool) (s : FermiState) :
    (fermiStep soc s l).fermi = s.fermi ∧ (fermiStep soc s l).done = s.done := by
  unfold fermiStep
  by_cases hd : s.done = true
  · rw [if_pos hd]
    exact ⟨rfl, rfl⟩
  · rw [if_neg hd]
    simp only [hf, hmd, Bool.false_eq_true, if_false, ite_self]
    exact ⟨trivial, trivial⟩

theorem foldl_fermiStep_no_marker (soc : Bool) (lines : List LogLine)
    (h : ∀ l ∈ lines, l.hasFermi = false ∧ l.hasMDFermi = false) :
    ∀ s : FermiState, (lines.foldl (fermiStep soc) s).fermi = s.fermi := by
  induction lines with
  | nil => intro s; rfl
  | cons l lines ih =>
    intro s
    have hl := h l (by simp)
    have hstep := fermiStep_no_marker hl.1 hl.2 soc s
    rw [List.foldl_cons]
    exact (ih (fun m hm => h m (by simp [hm])) (fermiStep soc s l)).trans hstep.1

theorem fermiStep_malformed {l : LogLine} (hm : l.regexValue = none)
    (soc : Bool) (s : FermiState) :
    (fermiStep soc s l).fermi = s.fermi ∧ (fermiStep soc s l).done = s.done := by
  unfold fermiStep
  by_cases hd : s.done = true
  · rw [if_pos hd]
    exact ⟨rfl, rfl⟩
  · rw [if_neg hd]
    simp only [hm, ite_self]
    exact ⟨trivial, trivial⟩

theorem foldl_fermiStep_malformed (soc : Bool) (lines : List LogLine)
    (h : ∀ l ∈ lines, l.hasFermi = true ∨ l.hasMDFermi = true →
      l.regexValue = none) :
    ∀ s : FermiState, (lines.foldl (fermiStep soc) s).fermi = s.fermi := by
  induction lines with
  | nil => intro s; rfl
  | cons l lines ih =>
    intro s
    have hstep : (fermiStep soc s l).fermi = s.fermi := by
      by_cases hmk : l.hasFermi = true ∨ l.hasMDFermi = true
      · exact (fermiStep_malformed (h l (by simp) hmk) soc s).1
      · push_neg at hmk
        exact (fermiStep_no_marker (Bool.not_eq_true _ ▸ hmk.1)
          (Bool.not_eq_true _ ▸ hmk.2) soc s).1
    rw [List.foldl_cons]
    exact (ih (fun m hm => h m (by simp [hm])) (fermiStep soc s l)).trans hstep

/-- C7.  The log readers degrade to `None` instead of raising: a missing
output file, a scan in which a marker line fails to parse (the `err`
state of the VBM/CBM scan; for the Fermi reader, marker lines on which
the float regex finds nothing, which the code skips without setting a
value), and a log in which the marker substrings never occur all produce
`None` results, and no exception escapes (the functions are total with
plain `Option` results). -/
theorem readers_none_on_failure (soc : Bool) :
    (read_vbm_cbm_from_output none soc = (none, none) ∧
      read_fermi_energy none soc = none) ∧
    (∀ lines : List LogLine,
      (∀ l ∈ lines, l.hasVBM = false ∧ l.hasCBM = false) →
      read_vbm_cbm_from_output (some lines) soc = (none, none)) ∧
    (∀ lines : List LogLine,
      (lines.foldl (vbmStep soc) ⟨false, false, none, none⟩).err = true →
      read_vbm_cbm_from_output (some lines) soc = (none, none)) ∧
    (∀ lines : List LogLine,
      (∀ l ∈ lines, l.hasFermi = false ∧ l.hasMDFermi = false) →
      read_fermi_energy (some lines) soc = none) ∧
    (∀ lines : List LogLine,
      (∀ l ∈ lines, l.hasFermi = true ∨ l.hasMDFermi = true →
        l.regexValue = none) →
      read_fermi_energy (some lines) soc = none) := by
  refine ⟨⟨rfl, rfl⟩, ?_, ?_, ?_, ?_⟩
  · intro lines h
    have hfold := foldl_vbmStep_no_marker soc lines h ⟨false, false, none, none⟩
    rw [read_vbm_cbm_from_output]
    by_cases he : (lines.foldl (vbmStep soc) ⟨false, false, none, none⟩).err = true
    · rw [if_pos he]
    · rw [if_neg he, hfold.1, hfold.2.1]
  · intro lines h
    rw [read_vbm_cbm_from_output, if_pos h]
  · intro lines h
    rw [read_fermi_energy]
    exact foldl_fermiStep_no_marker soc lines h ⟨false, false, none⟩
  · intro lines h
    rw [read_fermi_energy]
    exact foldl_fermiStep_malformed soc lines h ⟨false, false, none⟩

/-- Witness for C7: a lone VBM line whose value column fails to parse
gives `(None, None)`, a marker-free log gives `None`, and a lone Fermi
marker line on which the regex finds no number gives `None`. -/
theorem readers_none_on_failure_witness :
    read_vbm_cbm_from_output
        (some [⟨false, true, false, false, false, none, none⟩]) false = (none, none) ∧
    read_fermi_energy
        (some [⟨false, false, false, false, false, none, none⟩]) false = none ∧
    read_fermi_energy
        (some [⟨false, false, false, true, false, none, none⟩]) false = none :=
  ⟨(readers_none_on_failure false).2.2.1 _ (by decide),
   (readers_none_on_failure false).2.2.2.1 _ (by decide),
   (readers_none_on_failure false).2.2.2.2 _ (by decide)⟩

/-- C8.  The `in_soc_section` flag is set by a marker line and never reset
afterwards, for both readers; consequently, in non-SOC mode, lines coming
after a marker line never change either reader's returned values. -/
theorem soc_flag_permanent :
    (∀ (soc : Bool) (s : VbmState) (l : LogLine),
      s.err = false → l.hasSOCMarker = true → (vbmStep soc s l).in_soc = true) ∧
    (∀ (soc : Bool) (s : VbmState) (lines : List LogLine),
      s.in_soc = true → (lines.foldl (vbmStep soc) s).in_soc = true) ∧
    (∀ (soc : Bool) (s : FermiState) (l : LogLine),
      s.done = false → l.hasSOCMarker = true → (fermiStep soc s l).in_soc = true) ∧
    (∀ (soc : Bool) (s : FermiState) (lines : List LogLine),
      s.in_soc = true → (lines.foldl (fermiStep soc) s).in_soc = true) ∧
    (∀ pre post : List LogLine, (∃ l ∈ pre, l.hasSOCMarker = true) →
      read_vbm_cbm_from_output (some (pre ++ post)) false =
        read_vbm_cbm_from_output (some pre) false ∧
      read_fermi_energy (some (pre ++ post)) false =
        read_fermi_energy (some pre) false) := by
  refine ⟨fun soc s l he hm => vbmStep_marker soc s l he hm,
    fun soc s lines h => foldl_vbmStep_in_soc_mono soc lines h,
    fun soc s l hd hm => fermiStep_marker soc s l hd hm,
    fun soc s lines h => foldl_fermiStep_in_soc_mono soc lines h,
    ?_⟩
  intro pre post hmark
  constructor
  · rw [read_vbm_cbm_from_output, read_vbm_cbm_from_output, List.foldl_append,
      foldl_vbmStep_fix post (vbm_after_marker pre (Or.inl hmark))]
  · rw [read_fermi_energy, read_fermi_energy, List.foldl_append,
      foldl_fermiStep_fix post (fermi_after_marker pre (Or.inl hmark))]

/-- Witness for C8: after the SOC marker line, a line carrying every
marker changes nothing in non-SOC mode. -/
theorem soc_flag_permanent_witness :
    read_vbm_cbm_from_output
        (some ([⟨true, false, false, false, false, none, none⟩] ++
          [⟨false, true, true, true, true, some 1, some 1⟩])) false =
      read_vbm_cbm_from_output
        (some [⟨true, false, false, false, false, none, none⟩]) false ∧
    read_fermi_energy
        (some ([⟨true, false, false, false, false, none, none⟩] ++
          [⟨false, true, true, true, true, some 1, some 1⟩])) false =
      read_fermi_energy
        (some [⟨true, false, false, false, false, none, none⟩]) false :=
  soc_flag_permanent.2.2.2.2
    [⟨true, false, false, false, false, none, none⟩]
    [⟨false, true, true, true, true, some 1, some 1⟩]
    ⟨⟨true, false, false, false, false, none, none⟩, by simp, rfl⟩

/-! ## kpoints_gui_weighted.generate_band_lines

Python (numeric core; label generation and file output are string
formatting around these positions):
```
sparse_x_positions = np.linspace(sparse_x_min, sparse_x_max, sparse_density)
cone_x_positions = np.linspace(cone_x_min, cone_x_max, cone_density)
distances = np.abs(cone_x_positions - cx)
closest_idx = np.argmin(distances)
if distances[closest_idx] > 1e-6:
    cone_x_positions[closest_idx] = cx
all_x_positions = np.concatenate([sparse_x_positions, cone_x_positions])
unique_x_positions = remove_duplicate_lines(all_x_positions)
```
For the center point `G` the looked-up coordinate is `cx = 0`. -/

/-- `np.linspace`: `n` evenly spaced values from `a` to `b` inclusive. -/
def linspace (a b : ℚ) (n : ℕ) : List ℚ :=
  if n = 0 then []
  else if n = 1 then [a]
  else (List.range n).map (fun i : ℕ => a + (i : ℚ) * (b - a) / ((n : ℚ) - 1))

def argminAux : List ℚ → ℕ → ℕ → ℚ → ℕ
  | [], _, best, _ => best
  | x :: rest, i, best, bv =>
    if x < bv then argminAux rest (i + 1) i x else argminAux rest (i + 1) best bv

/-- `np.argmin`: index of the first minimal entry (`0` on the empty list,
where numpy raises instead). -/
def argmin : List ℚ → ℕ
  | [] => 0
  | x :: rest => argminAux rest 1 0 x

/-- The snap of the dense grid: overwrite (`List.set`, not an insertion)
the position closest to the center with the exact center coordinate when
it is farther than `1e-6` away. -/
def snapCone (cx : ℚ) (cone_x_positions : List ℚ) : List ℚ :=
  let distances := cone_x_positions.map (fun x => |x - cx|)
  let closest_idx := argmin distances
  if 1 / 10 ^ 6 < distances.getD closest_idx 0 then
    cone_x_positions.set closest_idx cx
  else cone_x_positions

/-- The x-position pipeline of `generate_band_lines`: sparse grid, snapped
dense grid, concatenation, deduplication and sort. -/
def generate_band_lines (cx sparse_x_min sparse_x_max : ℚ) (sparse_density : ℕ)
    (cone_x_min cone_x_max : ℚ) (cone_density : ℕ) : List ℚ :=
  remove_duplicate_lines
    (linspace sparse_x_min sparse_x_max sparse_density ++
      snapCone cx (linspace cone_x_min cone_x_max cone_density)) (1 / 10 ^ 8)

theorem linspace_length (a b : ℚ) (n : ℕ) : (linspace a b n).length = n := by
  unfold linspace
  by_cases h0 : n = 0
  · simp [h0]
  · by_cases h1 : n = 1
    · simp [h0, h1]
    · rw [if_neg h0, if_neg h1, List.length_map, List.length_range]

theorem argminAux_lt :
    ∀ (l : List ℚ) (i best : ℕ) (bv : ℚ), best < i →
      argminAux l i best bv < i + l.length := by
  intro l
  induction l with
  | nil => intro i best bv h; simpa using h
  | cons x rest ih =>
    intro i best bv h
    rw [argminAux]
    split
    · have h2 := ih (i + 1) i x (by omega)
      simp only [List.length_cons]
      omega
    · have h2 := ih (i + 1) best bv (by omega)
      simp only [List.length_cons]
      omega

theorem argmin_lt_length (l : List ℚ) (h : l ≠ []) : argmin l < l.length := by
  cases l with
  | nil => exact absurd rfl h
  | cons x rest =>
    rw [argmin, List.length_cons]
    have := argminAux_lt rest 1 0 x (by omega)
    omega

theorem sparse_eval_G : linspace (-1/5 : ℚ) (1/5) 10 =
    [-1/5, -7/45, -1/9, -1/15, -1/45, 1/45, 1/15, 1/9, 7/45, 1/5] := by
  have hrange : List.range 10 = [0,1,2,3,4,5,6,7,8,9] := by decide
  rw [linspace]
  norm_num [hrange]

theorem cone_eval_G : linspace (-1/20 : ℚ) (1/20) 10 =
    [-1/20, -7/180, -1/36, -1/60, -1/180, 1/180, 1/60, 1/36, 7/180, 1/20] := by
  have hrange : List.range 10 = [0,1,2,3,4,5,6,7,8,9] := by decide
  rw [linspace]
  norm_num [hrange]

theorem cone_dist_eval_G :
    ([-1/20, -7/180, -1/36, -1/60, -1/180, 1/180, 1/60, 1/36, 7/180, 1/20] : List ℚ).map
        (fun x => |x - 0|) =
      [1/20, 7/180, 1/36, 1/60, 1/180, 1/180, 1/60, 1/36, 7/180, 1/20] := by
  norm_num [abs_of_pos, abs_of_neg]

theorem cone_snap_eval_G : snapCone 0 (linspace (-1/20 : ℚ) (1/20) 10) =
    [-1/20, -7/180, -1/36, -1/60, 0, 1/180, 1/60, 1/36, 7/180, 1/20] := by
  rw [snapCone]
  simp only [cone_eval_G]
  rw [cone_dist_eval_G]
  norm_num [argmin, argminAux, List.set]

theorem cone_argmin_dist_eval_G :
    ((linspace (-1/20 : ℚ) (1/20) 10).map (fun x => |x - 0|)).getD
      (argmin ((linspace (-1/20 : ℚ) (1/20) 10).map (fun x => |x - 0|))) 0 = 1/180 := by
  simp only [cone_eval_G]
  rw [cone_dist_eval_G]
  norm_num [argmin, argminAux, List.getD]

set_option maxHeartbeats 2000000 in
/-- C2.  When the dense-range point nearest the center lies farther than
`1e-6` from it, `generate_band_lines` overwrites that point with the exact
center coordinate (the dense list keeps exactly `cone_density` elements
and the overwritten slot holds the center exactly); for center `G`
(`cx = 0`) with dense range `-0.05..0.05` of 10 points and sparse range
`-0.2..0.2` of 10 points, the final unique x-position list contains
exactly one value equal to `0` exactly. -/
theorem generate_band_lines_snap_spec (cx a b : ℚ) (n : ℕ) (hn : n ≠ 0)
    (hdist : 1 / 10 ^ 6 <
      ((linspace a b n).map (fun x => |x - cx|)).getD
        (argmin ((linspace a b n).map (fun x => |x - cx|))) 0) :
    (snapCone cx (linspace a b n)).length = n ∧
    (snapCone cx (linspace a b n)).getD
        (argmin ((linspace a b n).map (fun x => |x - cx|))) 0 = cx ∧
    List.count (0 : ℚ)
      (generate_band_lines 0 (-1/5) (1/5) 10 (-1/20) (1/20) 10) = 1 := by
  have hlen : (linspace a b n).length = n := linspace_length a b n
  have hne : (linspace a b n).map (fun x => |x - cx|) ≠ [] := by
    intro h
    apply hn
    have := congrArg List.length h
    simpa [hlen] using this
  have hidx : argmin ((linspace a b n).map (fun x => |x - cx|)) <
      (linspace a b n).length := by
    have h1 := argmin_lt_length _ hne
    rwa [List.length_map] at h1
  have hsnap : snapCone cx (linspace a b n) =
      (linspace a b n).set
        (argmin ((linspace a b n).map (fun x => |x - cx|))) cx := by
    rw [snapCone]
    exact if_pos hdist
  refine ⟨?_, ?_, ?_⟩
  · rw [hsnap, List.length_set, hlen]
  · rw [hsnap, List.getD_eq_getElem _ _ (by simpa [List.length_set] using hidx)]
    exact List.getElem_set_self _
  · have hall : linspace (-1/5 : ℚ) (1/5) 10 ++
        snapCone 0 (linspace (-1/20 : ℚ) (1/20) 10) =
        [-1/5, -7/45, -1/9, -1/15, -1/45, 1/45, 1/15, 1/9, 7/45, 1/5,
         -1/20, -7/180, -1/36, -1/60, 0, 1/180, 1/60, 1/36, 7/180, 1/20] := by
      rw [sparse_eval_G, cone_snap_eval_G]
      rfl
    have hpw : ([-1/5, -7/45, -1/9, -1/15, -1/45, 1/45, 1/15, 1/9, 7/45, 1/5,
        -1/20, -7/180, -1/36, -1/60, 0, 1/180, 1/60, 1/36, 7/180, 1/20] : List ℚ).Pairwise
        (fun u x => ¬(|x - u| < 1 / 10 ^ 8)) := by
      norm_num [List.pairwise_cons, abs_of_pos]
    have hfold := foldl_addIfNew_eq
      ([-1/5, -7/45, -1/9, -1/15, -1/45, 1/45, 1/15, 1/9, 7/45, 1/5,
        -1/20, -7/180, -1/36, -1/60, 0, 1/180, 1/60, 1/36, 7/180, 1/20] : List ℚ) []
      (by intro x _ u hu; simp at hu) hpw
    rw [generate_band_lines, hall, remove_duplicate_lines,
      ((List.perm_insertionSort (· ≤ ·) _).count_eq 0), hfold]
    norm_num [List.count_cons]

/-- Witness for C2 at the `G` example: the nearest dense point sits
`1/180` away from the center, farther than `1e-6`. -/
theorem generate_band_lines_snap_spec_witness :
    (10 : ℕ) ≠ 0 ∧
    ((snapCone 0 (linspace (-1/20 : ℚ) (1/20) 10)).length = 10 ∧
    (snapCone 0 (linspace (-1/20 : ℚ) (1/20) 10)).getD
        (argmin ((linspace (-1/20 : ℚ) (1/20) 10).map (fun x => |x - 0|))) 0 = 0 ∧
    List.count (0 : ℚ)
      (generate_band_lines 0 (-1/5) (1/5) 10 (-1/20) (1/20) 10) = 1) :=
  ⟨by norm_num, generate_band_lines_snap_spec 0 (-1/20) (1/20) 10 (by norm_num)
    (by rw [cone_argmin_dist_eval_G]; norm_num)⟩

/-! ## aims_kpoints_grid.save_grid_file

Python:
```
def save_grid_file(data, filename):
    with open(filename, 'w') as f:
        for value in data:
            f.write(f"{value:16.8f}\n")
```
The format `16.8f` rounds the value to 8 decimal places and right-aligns
it in a field of (at least) 16 characters.  The file is modelled as the
list of its lines, a line as its list of characters; re-reading the file
as floats is modelled by a character-level parser doing what Python's
`float` does on such a line (strip whitespace, optional sign, integer
digits, dot, fraction digits). -/

def digitToChar (d : ℕ) : Char :=
  match d with
  | 0 => '0' | 1 => '1' | 2 => '2' | 3 => '3' | 4 => '4'
  | 5 => '5' | 6 => '6' | 7 => '7' | 8 => '8' | _ => '9'

def charToDigit (c : Char) : ℕ := c.toNat - 48

/-- Decimal digit characters of `m`, most significant first. -/
def natChars (m : ℕ) : List Char :=
  if m = 0 then ['0'] else ((Nat.digits 10 m).map digitToChar).reverse

/-- The 8 digit characters after the decimal point: the fractional part
`m < 10^8`, zero-padded on the left to exactly 8 digits. -/
def fracChars (m : ℕ) : List Char :=
  ((Nat.digits 10 m ++
    List.replicate (8 - (Nat.digits 10 m).length) 0).map digitToChar).reverse

/-- `f"{v:16.8f}"`: round to 8 decimals, render sign, integer part, dot
and 8 fraction digits, and left-pad with spaces to width 16. -/
def fmtChars (v : ℚ) : List Char :=
  let n : ℤ := round (v * 10 ^ 8)
  let a : ℕ := n.natAbs
  let body := (if n < 0 then ['-'] else []) ++
    natChars (a / 10 ^ 8) ++ '.' :: fracChars (a % 10 ^ 8)
  List.replicate (16 - body.length) ' ' ++ body

/-- `save_grid_file`: one newline-terminated formatted line per value. -/
def save_grid_file (data : List ℚ) : List (List Char) :=
  data.map (fun v => fmtChars v ++ ['\n'])

def isSpaceChar (c : Char) : Bool := c == ' ' || c == '\n'

/-- Big-endian decimal digit-string value. -/
def parseNatChars (cs : List Char) : ℕ :=
  cs.foldl (fun acc c => 10 * acc + charToDigit c) 0

/-- `float` on an unsigned decimal literal `digits[.digits]`. -/
def parseUnsignedChars (cs : List Char) : Option ℚ :=
  let intCs := cs.takeWhile Char.isDigit
  let rest := cs.dropWhile Char.isDigit
  if rest.isEmpty then
    if intCs.isEmpty then none else some (parseNatChars intCs)
  else if rest.head? = some '.' ∧ rest.tail.all Char.isDigit ∧
      ¬(intCs.isEmpty ∧ rest.tail.isEmpty) then
    some ((parseNatChars intCs : ℚ) +
      (parseNatChars rest.tail : ℚ) / 10 ^ rest.tail.length)
  else none

/-- `float(line)`: strip surrounding whitespace, then an optional minus
sign followed by an unsigned decimal literal. -/
def parseFloatChars (cs : List Char) : Option ℚ :=
  let t := ((cs.dropWhile isSpaceChar).reverse.dropWhile isSpaceChar).reverse
  if t.head? = some '-' then (parseUnsignedChars t.tail).map (fun q => -q)
  else parseUnsignedChars t

theorem charToDigit_digitToChar {d : ℕ} (h : d < 10) :
    charToDigit (digitToChar d) = d := by
  interval_cases d <;> rfl

theorem isDigit_digitToChar (d : ℕ) : (digitToChar d).isDigit = true := by
  unfold digitToChar
  split <;> rfl

theorem not_space_digitToChar (d : ℕ) : isSpaceChar (digitToChar d) = false := by
  unfold digitToChar
  split <;> rfl

theorem isSpaceChar_of_isDigit {c : Char} (h : c.isDigit = true) :
    isSpaceChar c = false := by
  by_cases hsp : isSpaceChar c = true
  · exfalso
    simp only [isSpaceChar, Bool.or_eq_true, beq_iff_eq] at hsp
    rcases hsp with rfl | rfl
    · exact absurd h (by decide)
    · exact absurd h (by decide)
  · simpa using hsp

theorem digits_len_le {m : ℕ} (h : m < 10 ^ 8) : (Nat.digits 10 m).length ≤ 8 := by
  rcases Nat.eq_zero_or_pos m with hm | hm
  · simp [hm]
  · rw [Nat.digits_len 10 m (by norm_num) hm.ne.symm]
    have := Nat.log_lt_of_lt_pow hm.ne.symm h
    omega

theorem natChars_ne_nil (m : ℕ) : natChars m ≠ [] := by
  unfold natChars
  split
  · simp
  · simp [Nat.digits_ne_nil_iff_ne_zero.mpr (by assumption)]

theorem natChars_all_digits (m : ℕ) : ∀ c ∈ natChars m, c.isDigit = true := by
  unfold natChars
  split
  · intro c hc
    rw [List.mem_singleton] at hc
    subst hc
    rfl
  · intro c hc
    rw [List.mem_reverse, List.mem_map] at hc
    obtain ⟨d, _, rfl⟩ := hc
    exact isDigit_digitToChar d

theorem fracChars_length {m : ℕ} (h : m < 10 ^ 8) : (fracChars m).length = 8 := by
  have := digits_len_le h
  unfold fracChars
  rw [List.length_reverse, List.length_map, List.length_append, List.length_replicate]
  omega

theorem fracChars_all_digits (m : ℕ) : ∀ c ∈ fracChars m, c.isDigit = true := by
  intro c hc
  unfold fracChars at hc
  rw [List.mem_reverse, List.mem_map] at hc
  obtain ⟨d, _, rfl⟩ := hc
  exact isDigit_digitToChar d

theorem foldr_digits_eq_ofDigits (ds : List ℕ) (hds : ∀ d ∈ ds, d < 10) :
    ds.foldr (fun d acc => 10 * acc + charToDigit (digitToChar d)) 0 =
      Nat.ofDigits 10 ds := by
  induction ds with
  | nil => rfl
  | cons d ds ih =>
    rw [List.foldr_cons, Nat.ofDigits_cons,
      ih (fun e he => hds e (by simp [he])),
      charToDigit_digitToChar (hds d (by simp))]
    omega

theorem parseNatChars_of_digits (ds : List ℕ) (hds : ∀ d ∈ ds, d < 10) :
    parseNatChars ((ds.map digitToChar).reverse) = Nat.ofDigits 10 ds := by
  rw [parseNatChars, List.foldl_reverse, List.foldr_map]
  exact foldr_digits_eq_ofDigits ds hds

theorem parseNat_natChars (m : ℕ) : parseNatChars (natChars m) = m := by
  unfold natChars
  split
  · subst m
    rfl
  · rw [parseNatChars_of_digits _ (fun d hd => Nat.digits_lt_base (by norm_num) hd)]
    exact Nat.ofDigits_digits 10 m

theorem ofDigits_replicate_zero (k : ℕ) :
    Nat.ofDigits 10 (List.replicate k 0) = 0 := by
  induction k with
  | zero => rfl
  | succ k ih => rw [List.replicate_succ, Nat.ofDigits_cons, ih]

theorem parseNat_fracChars (m : ℕ) : parseNatChars (fracChars m) = m := by
  unfold fracChars
  rw [parseNatChars_of_digits]
  · rw [Nat.ofDigits_append, Nat.ofDigits_digits, ofDigits_replicate_zero]
    simp
  · intro d hd
    rcases List.mem_append.mp hd with hd | hd
    · exact Nat.digits_lt_base (by norm_num) hd
    · rw [List.eq_of_mem_replicate hd]
      norm_num

theorem dropWhile_replicate_space (k : ℕ) (l : List Char) :
    (List.replicate k ' ' ++ l).dropWhile isSpaceChar = l.dropWhile isSpaceChar := by
  induction k with
  | zero => rfl
  | succ k ih =>
    rw [List.replicate_succ, List.cons_append, List.dropWhile_cons]
    simp only [show isSpaceChar ' ' = true from rfl, if_true]
    exact ih

theorem takeWhile_append_all {p : Char → Bool} :
    ∀ (l₁ l₂ : List Char), (∀ c ∈ l₁, p c = true) →
      (l₁ ++ l₂).takeWhile p = l₁ ++ l₂.takeWhile p := by
  intro l₁
  induction l₁ with
  | nil => intro l₂ _; rfl
  | cons c l₁ ih =>
    intro l₂ h
    rw [List.cons_append, List.takeWhile_cons, h c (by simp), List.cons_append,
      ih l₂ (fun e he => h e (by simp [he]))]
    simp

theorem dropWhile_append_all {p : Char → Bool} :
    ∀ (l₁ l₂ : List Char), (∀ c ∈ l₁, p c = true) →
      (l₁ ++ l₂).dropWhile p = l₂.dropWhile p := by
  intro l₁
  induction l₁ with
  | nil => intro l₂ _; rfl
  | cons c l₁ ih =>
    intro l₂ h
    rw [List.cons_append, List.dropWhile_cons, h c (by simp),
      ih l₂ (fun e he => h e (by simp [he]))]
    simp

theorem dropWhile_eq_self_of_head {p : Char → Bool} {l : List Char}
    (h : ∀ c, l.head? = some c → p c = false) : l.dropWhile p = l := by
  cases l with
  | nil => rfl
  | cons c l =>
    rw [List.dropWhile_cons, h c rfl]
    simp

theorem getLast?_append_ne_nil (l1 l2 : List Char) (h : l2 ≠ []) :
    (l1 ++ l2).getLast? = l2.getLast? :=
  List.getLast?_append_of_ne_nil l1 h

theorem parseUnsigned_body (ip fp : ℕ) (hfp : fp < 10 ^ 8) :
    parseUnsignedChars (natChars ip ++ '.' :: fracChars fp) =
      some ((ip : ℚ) + (fp : ℚ) / 10 ^ 8) := by
  have hfrac_ne : fracChars fp ≠ [] := by
    intro h
    have := fracChars_length hfp
    rw [h] at this
    simp at this
  have hint : (natChars ip ++ '.' :: fracChars fp).takeWhile Char.isDigit =
      natChars ip := by
    rw [takeWhile_append_all _ _ (natChars_all_digits ip), List.takeWhile_cons]
    simp [show ('.').isDigit = false from rfl]
  have hrest : (natChars ip ++ '.' :: fracChars fp).dropWhile Char.isDigit =
      '.' :: fracChars fp := by
    rw [dropWhile_append_all _ _ (natChars_all_digits ip), List.dropWhile_cons]
    simp [show ('.').isDigit = false from rfl]
  rw [parseUnsignedChars]
  simp only [hint, hrest]
  rw [if_neg (by simp), if_pos ?_]
  · rw [List.tail_cons, parseNat_natChars, parseNat_fracChars, fracChars_length hfp]
  · refine ⟨rfl, ?_, ?_⟩
    · rw [List.tail_cons, List.all_eq_true]
      exact fun c hc => fracChars_all_digits fp c hc
    · rintro ⟨_, hemp⟩
      rw [List.tail_cons, List.isEmpty_iff] at hemp
      exact hfrac_ne hemp

theorem nat_div_mod_split (a : ℕ) :
    ((a / 10 ^ 8 : ℕ) : ℚ) + ((a % 10 ^ 8 : ℕ) : ℚ) / 10 ^ 8 = (a : ℚ) / 10 ^ 8 := by
  field_simp
  norm_cast
  omega

theorem parseFloat_fmt_general (n : ℤ) :
    parseFloatChars
      ((List.replicate
          (16 - ((if n < 0 then ['-'] else []) ++ natChars (n.natAbs / 10 ^ 8) ++
            '.' :: fracChars (n.natAbs % 10 ^ 8)).length) ' ' ++
        ((if n < 0 then ['-'] else []) ++ natChars (n.natAbs / 10 ^ 8) ++
          '.' :: fracChars (n.natAbs % 10 ^ 8))) ++ ['\n']) =
      some ((n : ℚ) / 10 ^ 8) := by
  set ip := n.natAbs / 10 ^ 8 with hip
  set fp := n.natAbs % 10 ^ 8 with hfp
  have hfplt : fp < 10 ^ 8 := Nat.mod_lt _ (by norm_num)
  set body : List Char :=
    (if n < 0 then ['-'] else []) ++ natChars ip ++ '.' :: fracChars fp with hbody
  obtain ⟨c0, cs, hnat⟩ := List.exists_cons_of_ne_nil (natChars_ne_nil ip)
  have hc0 : c0.isDigit = true := by
    apply natChars_all_digits
    rw [hnat]
    simp
  have hfrac_ne : fracChars fp ≠ [] := by
    intro h
    have := fracChars_length hfplt
    rw [h] at this
    simp at this
  have h1 : ((List.replicate (16 - body.length) ' ' ++ body) ++ ['\n']).dropWhile
      isSpaceChar = body ++ ['\n'] := by
    rw [List.append_assoc, dropWhile_replicate_space]
    apply dropWhile_eq_self_of_head
    intro c hc
    by_cases hneg : n < 0
    · rw [hbody, if_pos hneg] at hc
      simp only [List.cons_append, List.singleton_append, List.head?_cons,
        Option.some.injEq] at hc
      subst hc
      rfl
    · rw [hbody, if_neg hneg, hnat] at hc
      simp only [List.nil_append, List.cons_append, List.head?_cons,
        Option.some.injEq] at hc
      subst hc
      exact isSpaceChar_of_isDigit hc0
  have h2 : (((body ++ ['\n']).reverse).dropWhile isSpaceChar).reverse = body := by
    rw [List.reverse_append]
    simp only [List.reverse_cons, List.reverse_nil, List.nil_append,
      List.singleton_append]
    rw [List.dropWhile_cons]
    simp only [show isSpaceChar '\n' = true from rfl, if_true]
    rw [dropWhile_eq_self_of_head ?_, List.reverse_reverse]
    intro c hc
    rw [List.head?_reverse] at hc
    have hlast : body.getLast? = (fracChars fp).getLast? := by
      have hne3 : ('.' :: fracChars fp : List Char) ≠ [] := by simp
      rw [hbody]
      rw [getLast?_append_ne_nil _ _ hne3]
      cases hfc : fracChars fp with
      | nil => exact absurd hfc hfrac_ne
      | cons b m => rw [List.getLast?_cons_cons]
    rw [hlast] at hc
    exact isSpaceChar_of_isDigit
      (fracChars_all_digits fp c (List.mem_of_getLast?_eq_some hc))
  rw [parseFloatChars]
  simp only [h1, h2]
  by_cases hneg : n < 0
  · have hb : body = '-' :: (natChars ip ++ '.' :: fracChars fp) := by
      rw [hbody, if_pos hneg]
      rfl
    rw [hb]
    simp only [List.head?_cons, List.tail_cons]
    rw [if_pos trivial, parseUnsigned_body _ _ hfplt]
    have haq : ((n.natAbs : ℚ)) = -(n : ℚ) := by
      rw [Int.cast_natAbs, Int.cast_abs]
      exact abs_of_neg (by exact_mod_cast hneg)
    rw [Option.map_some', Option.some.injEq, hip, hfp, nat_div_mod_split, haq]
    ring
  · have hb : body = natChars ip ++ '.' :: fracChars fp := by
      rw [hbody, if_neg hneg]
      rfl
    rw [hb, if_neg ?_]
    · rw [parseUnsigned_body _ _ hfplt, Option.some.injEq, hip, hfp,
        nat_div_mod_split]
      congr 1
      rw [Int.cast_natAbs, Int.cast_abs,
        abs_of_nonneg (by exact_mod_cast not_lt.mp hneg)]
    · rw [hnat]
      simp only [List.cons_append, List.head?_cons, Option.some.injEq]
      intro hcontra
      rw [hcontra] at hc0
      exact absurd hc0 (by decide)

theorem parseFloat_fmtChars (v : ℚ) :
    parseFloatChars (fmtChars v ++ ['\n']) =
      some (((round (v * 10 ^ 8) : ℤ) : ℚ) / 10 ^ 8) :=
  parseFloat_fmt_general (round (v * 10 ^ 8))

theorem fmtChars_length (v : ℚ) : 16 ≤ (fmtChars v).length := by
  simp only [fmtChars, List.length_append, List.length_replicate]
  omega

theorem fmtChars_decomp (v : ℚ) :
    ∃ seg fr : List Char,
      fmtChars v ++ ['\n'] = seg ++ ('.' :: fr) ++ ['\n'] ∧
      fr.length = 8 ∧ ∀ c ∈ fr, c.isDigit = true := by
  refine ⟨List.replicate
      (16 - ((if round (v * 10 ^ 8) < 0 then ['-'] else []) ++
        natChars ((round (v * 10 ^ 8)).natAbs / 10 ^ 8) ++
        '.' :: fracChars ((round (v * 10 ^ 8)).natAbs % 10 ^ 8)).length) ' ' ++
      ((if round (v * 10 ^ 8) < 0 then ['-'] else []) ++
        natChars ((round (v * 10 ^ 8)).natAbs / 10 ^ 8)),
    fracChars ((round (v * 10 ^ 8)).natAbs % 10 ^ 8), ?_,
    fracChars_length (Nat.mod_lt _ (by norm_num)), fracChars_all_digits _⟩
  simp only [fmtChars, List.append_assoc]

theorem round_error_bound (v : ℚ) :
    |v - ((round (v * 10 ^ 8) : ℤ) : ℚ) / 10 ^ 8| ≤ 5 / 10 ^ 9 := by
  have h := abs_sub_round (v * 10 ^ 8)
  have heq : v - ((round (v * 10 ^ 8) : ℤ) : ℚ) / 10 ^ 8 =
      (v * 10 ^ 8 - ((round (v * 10 ^ 8) : ℤ) : ℚ)) / 10 ^ 8 := by
    field_simp
  rw [heq, abs_div, abs_of_pos (by norm_num : (0:ℚ) < 10 ^ 8)]
  calc |v * 10 ^ 8 - ((round (v * 10 ^ 8) : ℤ) : ℚ)| / 10 ^ 8
      ≤ (1 / 2) / 10 ^ 8 := by
        apply div_le_div_of_nonneg_right h (by norm_num)
    _ = 5 / 10 ^ 9 := by norm_num

/-- C9.  Each value is written on its own newline-terminated line of width
at least 16 with exactly 8 digits after the decimal point, and re-reading
the line as a float reproduces the original value within `5e-9`. -/
theorem save_grid_file_round_trip (data : List ℚ) (i : ℕ) (hi : i < data.length) :
    ((save_grid_file data).getD i []).getLast? = some '\n' ∧
    17 ≤ ((save_grid_file data).getD i []).length ∧
    (∃ seg fr : List Char,
      (save_grid_file data).getD i [] = seg ++ ('.' :: fr) ++ ['\n'] ∧
      fr.length = 8 ∧ ∀ c ∈ fr, c.isDigit = true) ∧
    ∃ q : ℚ, parseFloatChars ((save_grid_file data).getD i []) = some q ∧
      |data.getD i 0 - q| ≤ 5 / 10 ^ 9 := by
  have hline : (save_grid_file data).getD i [] =
      fmtChars (data.getD i 0) ++ ['\n'] := by
    rw [save_grid_file, List.getD_eq_getElem _ _ (by simpa using hi),
      List.getElem_map, List.getD_eq_getElem _ _ hi]
  rw [hline]
  refine ⟨?_, ?_, fmtChars_decomp _, ?_⟩
  · rw [getLast?_append_ne_nil _ _ (by simp)]
    rfl
  · rw [List.length_append, List.length_singleton]
    have := fmtChars_length (data.getD i 0)
    omega
  · exact ⟨_, parseFloat_fmtChars _, round_error_bound _⟩

/-- Witness for C9 at the single-value file `[3/2]`. -/
theorem save_grid_file_round_trip_witness :
    (0 : ℕ) < ([3 / 2] : List ℚ).length ∧
    (((save_grid_file [3 / 2]).getD 0 []).getLast? = some '\n' ∧
    17 ≤ ((save_grid_file [3 / 2]).getD 0 []).length ∧
    (∃ seg fr : List Char,
      (save_grid_file [3 / 2]).getD 0 [] = seg ++ ('.' :: fr) ++ ['\n'] ∧
      fr.length = 8 ∧ ∀ c ∈ fr, c.isDigit = true) ∧
    ∃ q : ℚ, parseFloatChars ((save_grid_file [3 / 2]).getD 0 []) = some q ∧
      |([3 / 2] : List ℚ).getD 0 0 - q| ≤ 5 / 10 ^ 9) :=
  ⟨by simp, save_grid_file_round_trip [3 / 2] 0 (by simp)⟩
